import Mathlib

/-!
Verification of the text-preprocessing pipeline of `md2pdf.py`.

The pipeline stages (`normalize_lists`, `process_arabic_text`,
`extract_mermaid_diagrams`, `extract_document_info`) and the relevant part of
`main`'s flag validation are shallowly embedded over `List Char`.  Python
strings become `List Char`; the specific regular expressions used by the
source are translated into explicit, executable scanning functions whose
behaviour (leftmost match, greedy/lazy quantifiers with backtracking,
`re.MULTILINE` / `re.DOTALL` effects) is reproduced case by case.

Embedding conventions:
* Python `\s` (and `str.strip` / `str.isspace`) is modelled by `pyIsSpace`,
  the set of Unicode whitespace code points recognised by CPython.
* Python `\d` is modelled by ASCII `Char.isDigit`; none of the verified
  claims depends on non-ASCII decimal digits.
* `str(int)` is modelled by `pyIntRepr` (decimal digits, leading `-`).
* Functions whose Python originals scan with a cursor that can jump several
  characters are written with an explicit fuel argument; the public wrappers
  pass the input length as fuel, which the scan never exhausts because every
  step consumes at least one character.
-/

/-- The set of characters matched by Python's `\s` in `str` patterns and
stripped by `str.strip()` (CPython's Unicode whitespace). -/
def pyIsSpace (c : Char) : Bool :=
  c = ' ' || c = '\t' || c = '\n' || c = '\u000D' || c = '\u000B' ||
  c = '\u000C' || c = '\u001C' || c = '\u001D' || c = '\u001E' ||
  c = '\u001F' || c = '\u0085' || c = '\u00A0' || c = '\u1680' ||
  ('\u2000' ≤ c && c ≤ '\u200A') ||
  c = '\u2028' || c = '\u2029' || c = '\u202F' || c = '\u205F' || c = '\u3000'

/-- Python `str.strip()`: drop leading and trailing whitespace. -/
def pyStrip (l : List Char) : List Char :=
  ((l.dropWhile pyIsSpace).reverse.dropWhile pyIsSpace).reverse

/-- `content.split('\n')`: split a character buffer at newline characters.
Always returns at least one (possibly empty) piece. -/
def splitNL : List Char → List (List Char)
  | [] => [[]]
  | c :: rest =>
    if c = '\n' then [] :: splitNL rest
    else
      match splitNL rest with
      | [] => [[c]]
      | l :: ls => (c :: l) :: ls

/-- `'\n'.join(lines)`: interleave pieces with newline characters. -/
def joinNL : List (List Char) → List Char
  | [] => []
  | [l] => l
  | l :: l' :: ls => l ++ '\n' :: joinNL (l' :: ls)

theorem splitNL_ne_nil (s : List Char) : splitNL s ≠ [] := by
  induction s with
  | nil => simp [splitNL]
  | cons c rest ih =>
    simp only [splitNL]
    split
    · simp
    · match h : splitNL rest with
      | [] => simp
      | l :: ls => simp

theorem splitNL_cons_nl (rest : List Char) :
    splitNL ('\n' :: rest) = [] :: splitNL rest := by
  simp [splitNL]

theorem splitNL_cons_of_ne {c : Char} (h : c ≠ '\n') (rest : List Char) :
    splitNL (c :: rest) =
      (c :: (splitNL rest).headD []) :: (splitNL rest).tail := by
  simp only [splitNL, if_neg h]
  match h2 : splitNL rest with
  | [] => exact absurd h2 (splitNL_ne_nil rest)
  | l :: ls => simp

/-- Splitting distributes over an explicit newline separator. -/
theorem splitNL_append_cons (a b : List Char) :
    splitNL (a ++ '\n' :: b) = splitNL a ++ splitNL b := by
  induction a with
  | nil => simp [splitNL]
  | cons c a' ih =>
    by_cases hc : c = '\n'
    · subst hc
      simp [splitNL_cons_nl, ih]
    · rw [List.cons_append, splitNL_cons_of_ne hc, splitNL_cons_of_ne hc, ih]
      have hne := splitNL_ne_nil a'
      match h2 : splitNL a' with
      | [] => exact absurd h2 hne
      | l :: ls => simp

/-- Pieces produced by `splitNL` contain no newline. -/
theorem not_nl_mem_of_mem_splitNL {s : List Char} {l : List Char}
    (h : l ∈ splitNL s) : '\n' ∉ l := by
  induction s generalizing l with
  | nil =>
    simp [splitNL] at h
    subst h; simp
  | cons c rest ih =>
    by_cases hc : c = '\n'
    · subst hc
      rw [splitNL_cons_nl] at h
      rcases List.mem_cons.1 h with h1 | h1
      · subst h1; simp
      · exact ih h1
    · rw [splitNL_cons_of_ne hc] at h
      rcases List.mem_cons.1 h with h1 | h1
      · subst h1
        have hh : (splitNL rest).headD [] ∈ splitNL rest := by
          match h2 : splitNL rest with
          | [] => exact absurd h2 (splitNL_ne_nil rest)
          | l' :: ls => simp
        intro hmem
        rcases List.mem_cons.1 hmem with h3 | h3
        · exact hc h3.symm
        · exact ih hh h3
      · have : l ∈ splitNL rest := by
          match h2 : splitNL rest with
          | [] => exact absurd h2 (splitNL_ne_nil rest)
          | l' :: ls =>
            rw [h2] at h1
            exact List.mem_cons_of_mem _ h1
        exact ih this

/-- A newline-free buffer is a single piece. -/
theorem splitNL_eq_singleton_of_not_nl {l : List Char} (h : '\n' ∉ l) :
    splitNL l = [l] := by
  induction l with
  | nil => simp [splitNL]
  | cons c rest ih =>
    have hc : c ≠ '\n' := fun hh => h (hh ▸ List.mem_cons_self c rest)
    have hrest : '\n' ∉ rest := fun hh => h (List.mem_cons_of_mem _ hh)
    rw [splitNL_cons_of_ne hc, ih hrest]
    simp

/-- `splitNL` is a left inverse of `joinNL` on nonempty lists of
newline-free pieces. -/
theorem splitNL_joinNL {ls : List (List Char)} (hne : ls ≠ [])
    (h : ∀ l ∈ ls, '\n' ∉ l) : splitNL (joinNL ls) = ls := by
  induction ls with
  | nil => exact absurd rfl hne
  | cons l ls' ih =>
    match ls' with
    | [] =>
      simp only [joinNL]
      exact splitNL_eq_singleton_of_not_nl (h l (List.mem_cons_self _ _))
    | l' :: ls'' =>
      simp only [joinNL]
      rw [splitNL_append_cons]
      rw [splitNL_eq_singleton_of_not_nl (h l (List.mem_cons_self _ _))]
      rw [ih (by simp) (fun x hx => h x (List.mem_cons_of_mem _ hx))]
      simp

/-- Splitting the join of mapped pieces flattens to per-piece splits. -/
theorem splitNL_joinNL_map (f : List Char → List Char) {ls : List (List Char)}
    (hne : ls ≠ []) :
    splitNL (joinNL (ls.map f)) = ls.flatMap (fun l => splitNL (f l)) := by
  induction ls with
  | nil => exact absurd rfl hne
  | cons l ls' ih =>
    match ls' with
    | [] => simp [joinNL, List.flatMap]
    | l' :: ls'' =>
      simp only [List.map_cons, joinNL, List.flatMap_cons]
      rw [splitNL_append_cons]
      have := ih (by simp)
      simp only [List.map_cons] at this
      rw [this, List.flatMap_cons]

/-- Number of pieces = number of newlines + 1. -/
theorem splitNL_length (s : List Char) :
    (splitNL s).length = s.count '\n' + 1 := by
  induction s with
  | nil => simp [splitNL]
  | cons c rest ih =>
    by_cases hc : c = '\n'
    · subst hc
      rw [splitNL_cons_nl]
      simp [ih, List.count_cons]
    · rw [splitNL_cons_of_ne hc]
      have hne := splitNL_ne_nil rest
      match h2 : splitNL rest with
      | [] => exact absurd h2 hne
      | l :: ls =>
        rw [h2] at ih
        simp only [List.length_cons] at ih ⊢
        simp [List.count_cons, hc, ← ih]

/-! ## List Normalizer (`normalize_lists`, md2pdf.py lines 80-94) -/

/-- Attempt to match the group `(\d+\.\s+)` of the pattern `:\s*(\d+\.\s+)`
immediately after a `:`; `rest` is the text following the colon.  On success
returns the captured group together with the text after the whole match.
The `\s*` between the colon and the digits is consumed but not captured.
Backtracking cannot produce any other outcome: `\s*` must stop exactly at the
first digit, `\d+` must be the maximal digit run (a shorter run is followed by
a digit, not `.`), and `\s+` is the maximal whitespace run after the dot. -/
def listMatch (rest : List Char) : Option (List Char × List Char) :=
  let t := rest.dropWhile pyIsSpace
  let digits := t.takeWhile Char.isDigit
  if digits = [] then none
  else
    match t.drop digits.length with
    | [] => none
    | d :: t2 =>
      if d = '.' then
        let ws2 := t2.takeWhile pyIsSpace
        if ws2 = [] then none
        else some (digits ++ '.' :: ws2, t2.drop ws2.length)
      else none

/-- One line of `re.sub(r':\s*(\d+\.\s+)', r':\n\n\1', line)`: scan left to
right, replacing every non-overlapping match.  `fuel` bounds the recursion;
the wrapper passes the line length, which suffices since every step consumes
at least one character. -/
def listSubGo : Nat → List Char → List Char
  | 0, s => s
  | _ + 1, [] => []
  | fuel + 1, c :: rest =>
    if c = ':' then
      match listMatch rest with
      | some (grp, rest') => ':' :: '\n' :: '\n' :: (grp ++ listSubGo fuel rest')
      | none => c :: listSubGo fuel rest
    else c :: listSubGo fuel rest

/-- `line.strip().startswith('#')`. -/
def headingLine (l : List Char) : Bool :=
  (l.dropWhile pyIsSpace).take 1 = ['#']

/-- `normalize_lists` (md2pdf.py lines 80-94): split into lines; heading
lines pass through unchanged, all other lines get the inline-numbered-list
substitution; re-join with newlines. -/
def normalize_lists (content : List Char) : List Char :=
  joinNL ((splitNL content).map
    (fun l => if headingLine l then l else listSubGo l.length l))

/-- C8: the List Normalizer never modifies a line whose trimmed content
starts with a heading marker `#`: the lines of the output are exactly the
per-line expansions of the input lines, and every heading line contributes
itself, verbatim, as a single line in its original position. -/
theorem C8_normalize_preserves_heading_lines (content : List Char) :
    splitNL (normalize_lists content) =
      (splitNL content).flatMap
        (fun l => if headingLine l then [l] else splitNL (listSubGo l.length l)) := by
  unfold normalize_lists
  rw [splitNL_joinNL_map _ (splitNL_ne_nil content)]
  apply List.flatMap_congr
  intro l hl
  by_cases h : headingLine l
  · simp only [h, if_true]
    exact splitNL_eq_singleton_of_not_nl (not_nl_mem_of_mem_splitNL hl)
  · simp [h]

/-! ## Script-Aware Text Wrapper (`process_arabic_text`, md2pdf.py lines 97-126) -/

/-- Decimal digit character, mirroring Python's integer formatting. -/
def digitChar : Nat → Char
  | 0 => '0' | 1 => '1' | 2 => '2' | 3 => '3' | 4 => '4'
  | 5 => '5' | 6 => '6' | 7 => '7' | 8 => '8' | _ => '9'

/-- Decimal digits of a natural number, most significant first; `fuel`
bounds the recursion and the wrapper passes `n + 1`, which always suffices. -/
def natDigitsGo : Nat → Nat → List Char → List Char
  | 0, _, acc => acc
  | fuel + 1, n, acc =>
    if n < 10 then digitChar (n % 10) :: acc
    else natDigitsGo fuel (n / 10) (digitChar (n % 10) :: acc)

/-- `str(n)` for a natural number. -/
def natDigits (n : Nat) : List Char := natDigitsGo (n + 1) n []

/-- Python `str(i)` for an integer. -/
def pyIntRepr (i : Int) : List Char :=
  if i < 0 then '-' :: natDigits i.natAbs else natDigits i.toNat

theorem digitChar_mem (n : Nat) :
    digitChar n ∈ (['0', '1', '2', '3', '4', '5', '6', '7', '8', '9'] : List Char) := by
  unfold digitChar
  split <;> simp

theorem mem_natDigitsGo {c : Char} :
    ∀ (fuel n : Nat) (acc : List Char), c ∈ natDigitsGo fuel n acc →
      c ∈ (['0', '1', '2', '3', '4', '5', '6', '7', '8', '9'] : List Char) ∨ c ∈ acc := by
  intro fuel
  induction fuel with
  | zero => intro n acc h; exact Or.inr h
  | succ fuel ih =>
    intro n acc h
    unfold natDigitsGo at h
    split at h
    · rcases List.mem_cons.1 h with h1 | h1
      · exact Or.inl (h1 ▸ digitChar_mem _)
      · exact Or.inr h1
    · rcases ih _ _ h with h1 | h1
      · exact Or.inl h1
      · rcases List.mem_cons.1 h1 with h2 | h2
        · exact Or.inl (h2 ▸ digitChar_mem _)
        · exact Or.inr h2

theorem not_nl_mem_pyIntRepr (i : Int) : '\n' ∉ pyIntRepr i := by
  unfold pyIntRepr
  split
  · intro h
    rcases List.mem_cons.1 h with h1 | h1
    · exact absurd h1 (by decide)
    · rcases mem_natDigitsGo _ _ _ h1 with h2 | h2
      · revert h2; decide
      · simp at h2
  · intro h
    rcases mem_natDigitsGo _ _ _ h with h2 | h2
    · revert h2; decide
    · simp at h2

/-- The Arabic Unicode range used by `process_arabic_text`
(`[؀-ۿ]`). -/
def isArabic (c : Char) : Bool := '؀' ≤ c && c ≤ 'ۿ'

/-- The opening `<span>` markup produced by `wrap_arabic`. -/
def arabicSpanOpen (sz : Int) : List Char :=
  ("<span style=\"font-size:").data ++ pyIntRepr sz ++
    ("px; font-family:Arial, sans-serif; direction:rtl;\">").data

/-- The closing markup produced by `wrap_arabic`. -/
def arabicSpanClose : List Char := ("</span>").data

/-- The `(?:\s*[؀-ۿ]+)*` tail of the Arabic run pattern: greedily
absorb further whitespace-separated Arabic segments.  Returns the absorbed
text and the remainder.  `fuel` bounds the recursion; each iteration consumes
at least one character. -/
def extendRun : Nat → List Char → List Char × List Char
  | 0, s => ([], s)
  | fuel + 1, s =>
    if (s.dropWhile pyIsSpace).takeWhile isArabic = [] then ([], s)
    else
      (s.takeWhile pyIsSpace ++ (s.dropWhile pyIsSpace).takeWhile isArabic ++
          (extendRun fuel ((s.dropWhile pyIsSpace).dropWhile isArabic)).1,
        (extendRun fuel ((s.dropWhile pyIsSpace).dropWhile isArabic)).2)

/-- One line of
`re.sub(arabic_pattern, wrap_arabic, line)` where
`arabic_pattern = r'[؀-ۿ]+(?:\s*[؀-ۿ]+)*'`: scan left to
right; each maximal Arabic run (with embedded whitespace between Arabic
segments) is wrapped in the styled span. -/
def wrapArabicGo (sz : Int) : Nat → List Char → List Char
  | 0, s => s
  | _ + 1, [] => []
  | fuel + 1, c :: rest =>
    if isArabic c then
      let a := (c :: rest).takeWhile isArabic
      let t := (c :: rest).dropWhile isArabic
      let e := extendRun t.length t
      arabicSpanOpen sz ++ a ++ e.1 ++ arabicSpanClose ++ wrapArabicGo sz fuel e.2
    else c :: wrapArabicGo sz fuel rest

/-- Apply the Arabic-run substitution to one line. -/
def wrapArabicLine (sz : Int) (l : List Char) : List Char :=
  wrapArabicGo sz l.length l

/-- `line.strip().startswith('```')`: the fence-marker test. -/
def fenceLine (l : List Char) : Bool :=
  (l.dropWhile pyIsSpace).take 3 = ("```").data

/-- The line loop of `process_arabic_text`: a single boolean tracks whether
the scan is inside a fenced code block; fence-marker lines toggle it and pass
through; lines inside a fence pass through; all other lines are wrapped. -/
def arabicLines (sz : Int) : Bool → List (List Char) → List (List Char)
  | _, [] => []
  | inCode, l :: ls =>
    if fenceLine l then l :: arabicLines sz (!inCode) ls
    else if inCode then l :: arabicLines sz inCode ls
    else wrapArabicLine sz l :: arabicLines sz inCode ls

/-- Python truthiness of the optional integer parameter
(`None` and `0` are falsy). -/
def pyTruthyInt : Option Int → Bool
  | none => false
  | some v => decide (v ≠ 0)

/-- `process_arabic_text` (md2pdf.py lines 97-126): no-op unless a truthy
font size is given; otherwise process line by line with the fence flag. -/
def process_arabic_text (content : List Char) (arabic_font_size : Option Int) :
    List Char :=
  if pyTruthyInt arabic_font_size then
    joinNL (arabicLines (arabic_font_size.getD 0) false (splitNL content))
  else content

/-- C4: the Script-Aware Text Wrapper is a strict no-op — output identical
to input — whenever the font-size parameter is absent (`None`) or zero. -/
theorem C4_no_op_without_font_size (content : List Char) :
    process_arabic_text content none = content ∧
      process_arabic_text content (some 0) = content := by
  constructor <;> rfl

/-- Fence-flag state after folding the given lines, starting from `b`. -/
def fenceFlagAfter (b : Bool) (ls : List (List Char)) : Bool :=
  ls.foldl (fun f l => if fenceLine l then !f else f) b

theorem extendRun_append :
    ∀ (fuel : Nat) (s : List Char),
      (extendRun fuel s).1 ++ (extendRun fuel s).2 = s := by
  intro fuel
  induction fuel with
  | zero => intro s; simp [extendRun]
  | succ fuel ih =>
    intro s
    unfold extendRun
    split
    · simp
    · simp only
      rw [List.append_assoc, List.append_assoc, ih]
      rw [List.takeWhile_append_dropWhile, List.takeWhile_append_dropWhile]

theorem not_nl_arabicSpanOpen (sz : Int) : '\n' ∉ arabicSpanOpen sz := by
  intro h
  unfold arabicSpanOpen at h
  rcases List.mem_append.1 h with h1 | h1
  · rcases List.mem_append.1 h1 with h2 | h2
    · revert h2; decide
    · exact not_nl_mem_pyIntRepr sz h2
  · revert h1; decide

/-- The substitution never introduces a newline into a newline-free line. -/
theorem not_nl_wrapArabicGo (sz : Int) :
    ∀ (fuel : Nat) (s : List Char), '\n' ∉ s → '\n' ∉ wrapArabicGo sz fuel s := by
  intro fuel
  induction fuel with
  | zero => intro s h; exact h
  | succ fuel ih =>
    intro s h
    match s with
    | [] => simp [wrapArabicGo]
    | c :: rest =>
      unfold wrapArabicGo
      by_cases hc : isArabic c
      · simp only [hc, if_true]
        intro hmem
        have hsub : ∀ x ∈ (c :: rest).dropWhile isArabic, x ∈ c :: rest :=
          fun x hx => (List.dropWhile_sublist _).mem hx
        rcases List.mem_append.1 hmem with h1 | h1
        · rcases List.mem_append.1 h1 with h2 | h2
          · rcases List.mem_append.1 h2 with h3 | h3
            · rcases List.mem_append.1 h3 with h4 | h4
              · exact not_nl_arabicSpanOpen sz h4
              · exact h ((List.takeWhile_sublist _).mem h4)
            · -- inside the extended run, a sub-sequence of the remainder
              have := extendRun_append ((c :: rest).dropWhile isArabic).length
                ((c :: rest).dropWhile isArabic)
              have hmem2 : '\n' ∈ (c :: rest).dropWhile isArabic := by
                rw [← this]
                exact List.mem_append.2 (Or.inl h3)
              exact h (hsub _ hmem2)
          · revert h2; unfold arabicSpanClose; decide
        · -- recursive call on the remainder of the run
          have := extendRun_append ((c :: rest).dropWhile isArabic).length
            ((c :: rest).dropWhile isArabic)
          have hrest : '\n' ∉ (extendRun ((c :: rest).dropWhile isArabic).length
              ((c :: rest).dropWhile isArabic)).2 := by
            intro hx
            have hmem2 : '\n' ∈ (c :: rest).dropWhile isArabic := by
              rw [← this]
              exact List.mem_append.2 (Or.inr hx)
            exact h (hsub _ hmem2)
          exact ih _ hrest h1
      · simp only [hc, if_false]
        intro hmem
        rcases List.mem_cons.1 hmem with h1 | h1
        · exact h (h1 ▸ List.mem_cons_self _ _)
        · exact ih rest (fun hx => h (List.mem_cons_of_mem _ hx)) h1

theorem not_nl_wrapArabicLine (sz : Int) {l : List Char} (h : '\n' ∉ l) :
    '\n' ∉ wrapArabicLine sz l :=
  not_nl_wrapArabicGo sz l.length l h

theorem arabicLines_cons (sz : Int) (b : Bool) (l : List Char)
    (ls : List (List Char)) :
    arabicLines sz b (l :: ls) =
      if fenceLine l then l :: arabicLines sz (!b) ls
      else if b then l :: arabicLines sz b ls
      else wrapArabicLine sz l :: arabicLines sz b ls := by
  cases b <;> rfl

theorem arabicLines_ne_nil (sz : Int) (b : Bool) {ls : List (List Char)}
    (h : ls ≠ []) : arabicLines sz b ls ≠ [] := by
  match ls with
  | [] => exact absurd rfl h
  | l :: ls' =>
    rw [arabicLines_cons]
    by_cases hf : fenceLine l
    · simp [hf]
    · by_cases hb : b <;> simp [hf, hb]

theorem not_nl_mem_arabicLines (sz : Int) :
    ∀ (ls : List (List Char)) (b : Bool), (∀ l ∈ ls, '\n' ∉ l) →
      ∀ l' ∈ arabicLines sz b ls, '\n' ∉ l' := by
  intro ls
  induction ls with
  | nil => intro b _ l' h'; simp [arabicLines] at h'
  | cons l ls' ih =>
    intro b h l' h'
    have hl : '\n' ∉ l := h l (List.mem_cons_self _ _)
    have hls : ∀ x ∈ ls', '\n' ∉ x := fun x hx => h x (List.mem_cons_of_mem _ hx)
    rw [arabicLines_cons] at h'
    by_cases hf : fenceLine l
    · simp only [hf, if_true] at h'
      rcases List.mem_cons.1 h' with h1 | h1
      · exact h1 ▸ hl
      · exact ih (!b) hls l' h1
    · cases b
      · simp only [hf, if_false, Bool.false_eq_true] at h'
        rcases List.mem_cons.1 h' with h1 | h1
        · exact h1 ▸ not_nl_wrapArabicLine sz hl
        · exact ih false hls l' h1
      · simp only [hf, if_false, if_true] at h'
        rcases List.mem_cons.1 h' with h1 | h1
        · exact h1 ▸ hl
        · exact ih true hls l' h1

theorem arabicLines_getElem?_of_flag (sz : Int) :
    ∀ (ls : List (List Char)) (b : Bool) (i : Nat),
      fenceFlagAfter b (ls.take i) = true →
      (arabicLines sz b ls)[i]? = ls[i]? := by
  intro ls
  induction ls with
  | nil => intro b i _; simp [arabicLines]
  | cons l ls' ih =>
    intro b i h
    match i with
    | 0 =>
      have hb : b = true := by simpa [fenceFlagAfter] using h
      subst hb
      unfold arabicLines
      by_cases hf : fenceLine l <;> simp [hf]
    | i + 1 =>
      have h' : fenceFlagAfter (if fenceLine l then !b else b) (ls'.take i) = true := by
        simpa [fenceFlagAfter, List.take_succ_cons] using h
      by_cases hf : fenceLine l
      · rw [arabicLines_cons]
        simp only [hf, if_true, List.getElem?_cons_succ]
        exact ih (!b) i (by simpa [hf] using h')
      · have h'' : fenceFlagAfter b (ls'.take i) = true := by simpa [hf] using h'
        rw [arabicLines_cons]
        cases b
        · simp only [hf, if_false, Bool.false_eq_true, List.getElem?_cons_succ]
          exact ih false i h''
        · simp only [hf, Bool.false_eq_true, if_false, if_true,
            List.getElem?_cons_succ]
          exact ih true i h''

/-- C5: for any truthy (in particular, any positive) font size, a line of
the input that lies while the inside-fence flag is true is passed through
unchanged by the Script-Aware Text Wrapper, regardless of its content. -/
theorem C5_fenced_lines_unchanged (content : List Char) (sz : Int) (i : Nat)
    (hsz : pyTruthyInt (some sz) = true)
    (hflag : fenceFlagAfter false ((splitNL content).take i) = true) :
    (splitNL (process_arabic_text content (some sz)))[i]? =
      (splitNL content)[i]? := by
  unfold process_arabic_text
  rw [hsz]
  simp only [if_true, Option.getD_some]
  rw [splitNL_joinNL (arabicLines_ne_nil sz false (splitNL_ne_nil content))
    (not_nl_mem_arabicLines sz (splitNL content) false
      (fun l hl => not_nl_mem_of_mem_splitNL hl))]
  exact arabicLines_getElem?_of_flag sz (splitNL content) false i hflag

/-- Witness for C5 at a concrete document: line 2 (`b`) lies inside a
fenced block and is returned unchanged with font size 14. -/
theorem C5_fenced_lines_unchanged_witness :
    (splitNL (process_arabic_text (("a\n```\nb\n```").data) (some 14)))[2]? =
      (splitNL (("a\n```\nb\n```").data))[2]? :=
  C5_fenced_lines_unchanged (("a\n```\nb\n```").data) 14 2 (by decide) (by decide)

/-! ## Diagram Extractor (`extract_mermaid_diagrams`, md2pdf.py lines 129-152)

The pattern is `r"```mermaid\n(.*?)\n```"` with `re.DOTALL`, applied by
`re.sub` with a replacement function.  `re.sub` scans positions left to
right; a match requires the literal opening token followed by the lazy body,
which ends at the first later occurrence of a newline followed by three
backticks; scanning resumes after each match. -/

/-- The literal opening token of the diagram pattern. -/
def openTok : List Char := ("```mermaid\n").data

/-- The literal closing token of the diagram pattern. -/
def closeTok : List Char := ("\n```").data

/-- Find the first occurrence of `closeTok`: returns the text before it and
the text after it (lazy `(.*?)\n``` ` semantics under `re.DOTALL`). -/
def findClose : List Char → Option (List Char × List Char)
  | [] => none
  | c :: rest =>
    if closeTok.isPrefixOf (c :: rest) then
      some ([], (c :: rest).drop closeTok.length)
    else
      match findClose rest with
      | some (pre, post) => some (c :: pre, post)
      | none => none

/-- Python `str.title()` restricted to ASCII letters: a letter is
uppercased when the previous character is not a letter, lowercased
otherwise. -/
def pyTitleGo : Bool → List Char → List Char
  | _, [] => []
  | prevCased, c :: rest =>
    if c.isAlpha then
      (if prevCased then c.toLower else c.toUpper) :: pyTitleGo true rest
    else c :: pyTitleGo false rest

/-- `s.title()`. -/
def pyTitle (l : List Char) : List Char := pyTitleGo false l

/-- `diagram_id.replace("_", " ").title()`: the human-readable caption. -/
def diagramCaption (diagram_id : List Char) : List Char :=
  pyTitle (diagram_id.map (fun c => if c = '_' then ' ' else c))

/-- The HTML placeholder emitted by `replace_diagram` for one diagram. -/
def mermaidPlaceholder (image_ext diagram_id : List Char) : List Char :=
  ("\n<div style=\"text-align:center;\">\n  <img src=\"").data ++ diagram_id ++
    '.' :: image_ext ++ ("\" alt=\"").data ++ diagram_id ++
    ("\" style=\"max-width:80%;\">\n  <p>").data ++ diagramCaption diagram_id ++
    ("</p>\n</div>\n").data

/-- The text `replace_diagram` substitutes for one match: the placeholder
for HTML output, the whole match (`match.group(0)`) otherwise. -/
def mermaidReplacement (output_format image_ext diagram_id body : List Char) :
    List Char :=
  if output_format = ("html").data then mermaidPlaceholder image_ext diagram_id
  else openTok ++ body ++ closeTok

/-- The left-to-right non-overlapping substitution loop of
`re.sub(pattern, replace_diagram, markdown_content, flags=re.DOTALL)`,
also collecting the `diagrams` list.  `n` is `len(diagrams)` so far; `fuel`
bounds the recursion and the wrapper passes the content length, which always
suffices since every step consumes at least one character. -/
def extractGo (output_format image_ext : List Char) :
    Nat → List Char → Nat → List Char × List (List Char × List Char)
  | 0, s, _ => (s, [])
  | _ + 1, [], _ => ([], [])
  | fuel + 1, c :: rest, n =>
    if openTok.isPrefixOf (c :: rest) then
      match findClose ((c :: rest).drop openTok.length) with
      | some (body, post) =>
        (mermaidReplacement output_format image_ext
            (("diagram_").data ++ natDigits n) body ++
            (extractGo output_format image_ext fuel post (n + 1)).1,
          (("diagram_").data ++ natDigits n, body) ::
            (extractGo output_format image_ext fuel post (n + 1)).2)
      | none =>
        (c :: (extractGo output_format image_ext fuel rest n).1,
          (extractGo output_format image_ext fuel rest n).2)
    else
      (c :: (extractGo output_format image_ext fuel rest n).1,
        (extractGo output_format image_ext fuel rest n).2)

/-- `extract_mermaid_diagrams` (md2pdf.py lines 129-152): returns the
rewritten content and the ordered list of `(diagram_id, diagram_content)`
pairs. -/
def extract_mermaid_diagrams (markdown_content output_format image_ext : List Char) :
    List Char × List (List Char × List Char) :=
  extractGo output_format image_ext markdown_content.length markdown_content 0

theorem isPrefixOf_eq_append :
    ∀ {l s : List Char}, l.isPrefixOf s = true → s = l ++ s.drop l.length := by
  intro l
  induction l with
  | nil => intro s _; simp
  | cons a as ih =>
    intro s h
    match s with
    | [] => simp [List.isPrefixOf] at h
    | b :: bs =>
      simp only [List.isPrefixOf, Bool.and_eq_true, beq_iff_eq] at h
      obtain ⟨rfl, h2⟩ := h
      simpa using ih h2

theorem isPrefixOf_append_self (l t : List Char) :
    l.isPrefixOf (l ++ t) = true := by
  induction l with
  | nil => simp [List.isPrefixOf]
  | cons a as ih => simpa [List.isPrefixOf] using ih

theorem isPrefixOf_length_le {l s : List Char} (h : l.isPrefixOf s = true) :
    l.length ≤ s.length := by
  have := isPrefixOf_eq_append h
  apply_fun List.length at this
  simp only [List.length_append] at this
  omega

theorem findClose_eq :
    ∀ {s pre post : List Char}, findClose s = some (pre, post) →
      s = pre ++ closeTok ++ post := by
  intro s
  induction s with
  | nil => intro pre post h; simp [findClose] at h
  | cons c rest ih =>
    intro pre post h
    unfold findClose at h
    split at h
    · next hp =>
      injection h with h1
      injection h1 with h2 h3
      subst h2; subst h3
      simpa using isPrefixOf_eq_append hp
    · next hp =>
      match h2 : findClose rest with
      | some (pre', post') =>
        rw [h2] at h
        injection h with h1
        injection h1 with h3 h4
        subst h3; subst h4
        have := ih h2
        rw [List.cons_append, List.cons_append, ← this]
      | none => rw [h2] at h; exact absurd h (by simp)

theorem findClose_none :
    ∀ {s : List Char}, findClose s = none →
      ∀ u v : List Char, s ≠ u ++ closeTok ++ v := by
  intro s
  induction s with
  | nil =>
    intro _ u v h
    apply_fun List.length at h
    simp [closeTok] at h
    omega
  | cons c rest ih =>
    intro h u v heq
    unfold findClose at h
    split at h
    · exact absurd h (by simp)
    · next hp =>
      match h2 : findClose rest with
      | some (pre', post') => rw [h2] at h; exact absurd h (by simp)
      | none =>
        match u with
        | [] =>
          simp only [List.nil_append] at heq
          rw [heq] at hp
          rw [isPrefixOf_append_self] at hp
          simp at hp
        | c' :: u' =>
          simp only [List.cons_append] at heq
          injection heq with _ heq2
          exact ih h2 u' v heq2

/-- Interleaving of unmatched segments and diagram placeholders: the shape
of `re.sub` output with one replacement per collected diagram. -/
def joinPH (output_format image_ext : List Char) :
    List (List Char) → List (List Char × List Char) → List Char
  | [s], [] => s
  | s :: ss, (diagram_id, body) :: ds =>
    s ++ mermaidReplacement output_format image_ext diagram_id body ++
      joinPH output_format image_ext ss ds
  | _, _ => []

theorem joinPH_cons (fmt ext s0 : List Char) (ss : List (List Char))
    (d : List Char × List Char) (ds : List (List Char × List Char)) :
    joinPH fmt ext (s0 :: ss) (d :: ds) =
      s0 ++ mermaidReplacement fmt ext d.1 d.2 ++ joinPH fmt ext ss ds := by
  match ss with
  | [] => rfl
  | s1 :: ss' => rfl

theorem joinPH_cons_char (fmt ext : List Char) (c : Char) (s0 : List Char)
    (ss : List (List Char)) (ds : List (List Char × List Char))
    (h : ss.length = ds.length) :
    joinPH fmt ext ((c :: s0) :: ss) ds = c :: joinPH fmt ext (s0 :: ss) ds := by
  match ds with
  | [] =>
    match ss with
    | [] => rfl
    | _ :: _ => simp at h
  | d :: ds' =>
    rw [joinPH_cons, joinPH_cons]
    simp

theorem extractGo_spec (fmt ext : List Char) :
    ∀ (fuel : Nat) (s : List Char) (n : Nat), s.length ≤ fuel →
      ((extractGo fmt ext fuel s n).2.map Prod.fst =
          (List.range (extractGo fmt ext fuel s n).2.length).map
            (fun i => ("diagram_").data ++ natDigits (n + i))) ∧
        ∃ segs : List (List Char),
          segs.length = (extractGo fmt ext fuel s n).2.length + 1 ∧
            (extractGo fmt ext fuel s n).1 =
              joinPH fmt ext segs (extractGo fmt ext fuel s n).2 := by
  intro fuel
  induction fuel with
  | zero =>
    intro s n _
    exact ⟨by simp [extractGo], ⟨[s], by simp [extractGo], by simp [extractGo, joinPH]⟩⟩
  | succ fuel ih =>
    intro s n h
    match s with
    | [] =>
      exact ⟨by simp [extractGo], ⟨[[]], by simp [extractGo], by simp [extractGo, joinPH]⟩⟩
    | c :: rest =>
      by_cases hp : openTok.isPrefixOf (c :: rest)
      · match hf : findClose ((c :: rest).drop openTok.length) with
        | some (body, post) =>
          have heq : extractGo fmt ext (fuel + 1) (c :: rest) n =
              (mermaidReplacement fmt ext (("diagram_").data ++ natDigits n) body ++
                  (extractGo fmt ext fuel post (n + 1)).1,
                (("diagram_").data ++ natDigits n, body) ::
                  (extractGo fmt ext fuel post (n + 1)).2) := by
            simp only [extractGo, hp, if_true, hf]
          have hlen : post.length ≤ fuel := by
            have h1 := findClose_eq hf
            apply_fun List.length at h1
            simp only [List.length_drop, List.length_append,
              List.length_cons] at h1
            have h2 : openTok.length = 11 := by rfl
            have h3 : closeTok.length = 4 := by rfl
            simp only [List.length_cons] at h
            omega
          obtain ⟨ih1, segs, hseglen, hsegs⟩ := ih post (n + 1) hlen
          rw [heq]
          constructor
          · simp only [List.map_cons, List.length_cons]
            rw [List.range_succ_eq_map, List.map_cons, List.map_map]
            rw [ih1]
            have harith : ∀ i : Nat, n + 1 + i = n + (i + 1) := fun i => by omega
            simp [Function.comp_def, harith]
          · refine ⟨[] :: segs, by simp [hseglen], ?_⟩
            rw [joinPH_cons]
            simp only [List.nil_append]
            rw [hsegs]
        | none =>
          have heq : extractGo fmt ext (fuel + 1) (c :: rest) n =
              (c :: (extractGo fmt ext fuel rest n).1,
                (extractGo fmt ext fuel rest n).2) := by
            simp only [extractGo, hp, if_true, hf]
          have hlen : rest.length ≤ fuel := by
            simp only [List.length_cons] at h; omega
          obtain ⟨ih1, segs, hseglen, hsegs⟩ := ih rest n hlen
          rw [heq]
          refine ⟨ih1, ?_⟩
          match segs, hseglen with
          | s0 :: ss, hseglen =>
            refine ⟨(c :: s0) :: ss, by simpa using hseglen, ?_⟩
            rw [joinPH_cons_char fmt ext c s0 ss _ (by simpa using hseglen)]
            rw [hsegs]
      · have heq : extractGo fmt ext (fuel + 1) (c :: rest) n =
            (c :: (extractGo fmt ext fuel rest n).1,
              (extractGo fmt ext fuel rest n).2) := by
          simp only [extractGo]
          rw [if_neg hp]
        have hlen : rest.length ≤ fuel := by
          simp only [List.length_cons] at h; omega
        obtain ⟨ih1, segs, hseglen, hsegs⟩ := ih rest n hlen
        rw [heq]
        refine ⟨ih1, ?_⟩
        match segs, hseglen with
        | s0 :: ss, hseglen =>
          refine ⟨(c :: s0) :: ss, by simpa using hseglen, ?_⟩
          rw [joinPH_cons_char fmt ext c s0 ss _ (by simpa using hseglen)]
          rw [hsegs]

/-- C1: for every document, the Diagram Extractor (HTML path) returns
DiagramBlock entries whose identifiers are exactly `diagram_0` through
`diagram_{K-1}` in source-scan order (`K` the number of matched fenced
diagram blocks), and the rewritten body is an interleaving of the unmatched
segments with exactly `K` placeholders, one per identifier, in order. -/
theorem C1_diagram_ids_and_placeholders (markdown_content image_ext : List Char) :
    ((extract_mermaid_diagrams markdown_content (("html").data) image_ext).2.map
        Prod.fst =
      (List.range
          (extract_mermaid_diagrams markdown_content (("html").data)
            image_ext).2.length).map
        (fun i => ("diagram_").data ++ natDigits i)) ∧
      ∃ segs : List (List Char),
        segs.length =
          (extract_mermaid_diagrams markdown_content (("html").data)
            image_ext).2.length + 1 ∧
        (extract_mermaid_diagrams markdown_content (("html").data) image_ext).1 =
          joinPH (("html").data) image_ext segs
            (extract_mermaid_diagrams markdown_content (("html").data) image_ext).2 := by
  have := extractGo_spec (("html").data) image_ext markdown_content.length
    markdown_content 0 (le_refl _)
  simpa [extract_mermaid_diagrams] using this

theorem extractGo_no_match (fmt ext : List Char) :
    ∀ (fuel : Nat) (s : List Char) (n : Nat), s.length ≤ fuel →
      (((extractGo fmt ext fuel s n).2 = []) ↔
          ∀ a b d : List Char, s ≠ a ++ openTok ++ b ++ closeTok ++ d) ∧
        ((extractGo fmt ext fuel s n).2 = [] →
          (extractGo fmt ext fuel s n).1 = s) := by
  intro fuel
  induction fuel with
  | zero =>
    intro s n h
    have hs : s = [] := List.length_eq_zero.1 (Nat.le_zero.1 h)
    subst hs
    refine ⟨⟨fun _ a b d heq => ?_, fun _ => by simp [extractGo]⟩, fun _ => by simp [extractGo]⟩
    apply_fun List.length at heq
    simp [openTok, closeTok] at heq
    omega
  | succ fuel ih =>
    intro s n h
    match s with
    | [] =>
      refine ⟨⟨fun _ a b d heq => ?_, fun _ => by simp [extractGo]⟩, fun _ => by simp [extractGo]⟩
      apply_fun List.length at heq
      simp [openTok, closeTok] at heq
      omega
    | c :: rest =>
      have hlen : rest.length ≤ fuel := by
        simp only [List.length_cons] at h; omega
      by_cases hp : openTok.isPrefixOf (c :: rest)
      · match hf : findClose ((c :: rest).drop openTok.length) with
        | some (body, post) =>
          have heq : (extractGo fmt ext (fuel + 1) (c :: rest) n).2 =
              (("diagram_").data ++ natDigits n, body) ::
                (extractGo fmt ext fuel post (n + 1)).2 := by
            simp only [extractGo, hp, if_true, hf]
          have hdecomp : c :: rest =
              [] ++ openTok ++ body ++ closeTok ++ post := by
            have h1 := isPrefixOf_eq_append hp
            have h2 := findClose_eq hf
            rw [h2] at h1
            simpa [List.append_assoc] using h1
          constructor
          · constructor
            · intro hnil
              rw [heq] at hnil
              exact absurd hnil (by simp)
            · intro hall
              exact absurd hdecomp (hall [] body post)
          · intro hnil
            rw [heq] at hnil
            exact absurd hnil (by simp)
        | none =>
          have heq : extractGo fmt ext (fuel + 1) (c :: rest) n =
              (c :: (extractGo fmt ext fuel rest n).1,
                (extractGo fmt ext fuel rest n).2) := by
            simp only [extractGo, hp, if_true, hf]
          obtain ⟨ih1, ih2⟩ := ih rest n hlen
          rw [heq]
          constructor
          · simp only
            rw [ih1]
            constructor
            · intro hall a b d heq2
              match a with
              | [] =>
                -- the opening token is a prefix here but no close exists
                simp only [List.nil_append] at heq2
                have : findClose ((c :: rest).drop openTok.length) ≠ none := by
                  rw [heq2, List.append_assoc, List.append_assoc,
                    List.drop_left]
                  intro hcl
                  exact findClose_none hcl b d (by rw [List.append_assoc])
                exact this hf
              | a0 :: a' =>
                simp only [List.cons_append] at heq2
                injection heq2 with _ heq3
                exact hall a' b d heq3
            · intro hall a b d heq2
              exact hall (c :: a) b d (by simp [heq2])
          · intro hnil
            simp only at hnil
            simp only [ih2 hnil]
      · have heq : extractGo fmt ext (fuel + 1) (c :: rest) n =
            (c :: (extractGo fmt ext fuel rest n).1,
              (extractGo fmt ext fuel rest n).2) := by
          simp only [extractGo]
          rw [if_neg hp]
        obtain ⟨ih1, ih2⟩ := ih rest n hlen
        rw [heq]
        constructor
        · simp only
          rw [ih1]
          constructor
          · intro hall a b d heq2
            match a with
            | [] =>
              simp only [List.nil_append] at heq2
              have : openTok.isPrefixOf (c :: rest) = true := by
                rw [heq2, List.append_assoc, List.append_assoc]
                exact isPrefixOf_append_self _ _
              exact hp this
            | a0 :: a' =>
              simp only [List.cons_append] at heq2
              injection heq2 with _ heq3
              exact hall a' b d heq3
          · intro hall a b d heq2
            exact hall (c :: a) b d (by simp [heq2])
        · intro hnil
          simp only at hnil
          simp only [ih2 hnil]

/-- C10 (amended): a diagram is recognized exactly when the text contains
the token `` ```mermaid `` immediately followed by a newline with, later, a
closing `` ``` `` preceded by a newline — the opening token need not occupy
a whole line.  In particular an opening tag with trailing characters before
its newline, or a block whose closing fence immediately follows the opening
token (leaving no `body\n` part), produces no match; and when nothing
matches, the body is returned unchanged with no DiagramBlock entries. -/
theorem C10_fence_recognition (markdown_content fmt ext : List Char) :
    (((extract_mermaid_diagrams markdown_content fmt ext).2 = []) ↔
        ∀ a b d : List Char,
          markdown_content ≠ a ++ openTok ++ b ++ closeTok ++ d) ∧
      ((extract_mermaid_diagrams markdown_content fmt ext).2 = [] →
        (extract_mermaid_diagrams markdown_content fmt ext).1 =
          markdown_content) :=
  extractGo_no_match fmt ext markdown_content.length markdown_content 0
    (le_refl _)

/-- Counterexample to C10 as stated: in
`"a```mermaid\nZ\n```"` no line is exactly `` ```mermaid `` (the opening
token sits mid-line), yet the extractor recognizes one diagram. -/
theorem C10_counterexample :
    (extract_mermaid_diagrams (("a```mermaid\nZ\n```").data) (("html").data)
        (("svg").data)).2.length = 1 ∧
      ("```mermaid").data ∉ splitNL (("a```mermaid\nZ\n```").data) := by
  constructor
  · rfl
  · decide

/-- Witness for C10 at a concrete input: an opening tag with trailing
characters before its newline is not recognized, and the body comes back
unchanged. -/
theorem C10_fence_recognition_witness :
    (extract_mermaid_diagrams (("```mermaid extra\nx\n```no").data)
        (("html").data) (("svg").data)).1 =
      ("```mermaid extra\nx\n```no").data :=
  (C10_fence_recognition (("```mermaid extra\nx\n```no").data) (("html").data)
      (("svg").data)).2 (by decide)

/-! ## Metadata Extractor (`extract_document_info`, md2pdf.py lines 155-185)

The author/email patterns are `r'\*\*Author\*\*:\s*(.+)$'` and
`r'\*\*Email\*\*:\s*(.+)$'` with `re.MULTILINE` and no `^` anchor: the label
may occur mid-line, `\s*` greedily crosses newlines, and `(.+)` is the
maximal newline-free run ending at a line boundary.  The sub is applied only
when the stripped group is nonempty, with `count=1` (first match only). -/

/-- The semantics of `\s*(.+)$` (with `re.MULTILINE`) matched at the start
of `t`: the greedy `\s*` takes the maximal whitespace run; `(.+)` then needs
at least one non-newline character.  When the whole of `t` is whitespace,
`\s*` backtracks to the last position holding a non-newline (whitespace)
character.  Returns `(wsLen, group)` on success. -/
def lastNonNl (t : List Char) : Nat → Option Nat
  | 0 => none
  | k + 1 =>
    match t[k]? with
    | some c => if c = '\n' then lastNonNl t k else some k
    | none => lastNonNl t k

def wsDotPlusCore (t : List Char) : Option (Nat × List Char) :=
  if t.dropWhile pyIsSpace = [] then
    match lastNonNl t (t.takeWhile pyIsSpace).length with
    | some k => some (k, (t.drop k).takeWhile (fun c => c ≠ '\n'))
    | none => none
  else
    some ((t.takeWhile pyIsSpace).length,
      (t.drop (t.takeWhile pyIsSpace).length).takeWhile (fun c => c ≠ '\n'))

/-- One match of a labelled-line pattern `tok · \s* · (.+) · $`. -/
structure LabelMatch where
  pre : List Char
  matched : List Char
  group : List Char
  post : List Char

/-- `re.search` / leftmost `re.sub` match of the labelled pattern: scan
positions left to right; at each position the literal token must match and
then `\s*(.+)$` must succeed. -/
def findLabeled (tok : List Char) : List Char → Option LabelMatch
  | [] => none
  | c :: rest =>
    if tok.isPrefixOf (c :: rest) then
      match wsDotPlusCore ((c :: rest).drop tok.length) with
      | some (k, g) =>
        some ⟨[], tok ++ ((c :: rest).drop tok.length).take k ++ g, g,
          ((c :: rest).drop tok.length).drop (k + g.length)⟩
      | none =>
        match findLabeled tok rest with
        | some m => some ⟨c :: m.pre, m.matched, m.group, m.post⟩
        | none => none
    else
      match findLabeled tok rest with
      | some m => some ⟨c :: m.pre, m.matched, m.group, m.post⟩
      | none => none

/-- Does `tok` occur as a contiguous substring? -/
def containsTok (tok : List Char) : List Char → Bool
  | [] => tok.isEmpty
  | c :: rest => tok.isPrefixOf (c :: rest) || containsTok tok rest

/-- `\s+(.+)$`: like `wsDotPlusCore` but the whitespace run must be
nonempty (used by the `^#\s+(.+)$` title pattern). -/
def wsPlusDotPlus (t : List Char) : Option (Nat × List Char) :=
  match wsDotPlusCore t with
  | some (k, g) => if k = 0 then none else some (k, g)
  | none => none

/-- Leftmost match of `^#\s+(.+)$` with `re.MULTILINE`: the `#` must sit at
a line start; on pattern failure the scan continues at the next position. -/
def findTitle : Bool → List Char → Option (List Char)
  | _, [] => none
  | atLineStart, c :: rest =>
    if atLineStart && c = '#' then
      match wsPlusDotPlus rest with
      | some (_, g) => some g
      | none => findTitle (c == '\n') rest
    else findTitle (c == '\n') rest

/-- Length of the `\n+` run of `t` starting at index `k`. -/
def nlRunLen (t : List Char) (k : Nat) : Nat :=
  ((t.drop k).takeWhile (fun c => c = '\n')).length

/-- Backtracking of `\s*\n+([^#]+)` over the whitespace run of `t` (the
abstract pattern tail after the literal `Abstract`).  `k + 1` means: try
`\s*` of length `k` next (the greedy engine works downwards; length `w`
itself cannot start `\n+` because the character at `w` is not whitespace).
For a given `k` with `t[k] = '\n'`, the greedy `\n+` takes the whole newline
run; if the next character is `#` or the end, `\n+` backtracks one step,
which succeeds exactly when the run has length at least 2 and captures a
single newline. -/
def abstractBack (t : List Char) : Nat → Option (List Char)
  | 0 => none
  | k + 1 =>
    match t[k]? with
    | some c =>
      if c = '\n' then
        match t[k + nlRunLen t k]? with
        | some c2 =>
          if c2 = '#' then
            if 2 ≤ nlRunLen t k then some ['\n'] else abstractBack t k
          else some ((t.drop (k + nlRunLen t k)).takeWhile (fun x => x ≠ '#'))
        | none =>
          if 2 ≤ nlRunLen t k then some ['\n'] else abstractBack t k
      else abstractBack t k
    | none => abstractBack t k

/-- The literal `## Abstract\n` header (as it occurs in well-formed input;
the pattern itself allows any whitespace between `##` and `Abstract`). -/
def abstractHdr : List Char := ("## Abstract\n").data

/-- Does `##` followed by optional whitespace followed by `Abstract` match
at the start of `s`? -/
def abstractHeadHere (s : List Char) : Bool :=
  (("##").data).isPrefixOf s &&
    (("Abstract").data).isPrefixOf
      ((s.drop 2).drop ((s.drop 2).takeWhile pyIsSpace).length)

/-- The text after the matched `## \s* Abstract` prefix of `s`. -/
def afterAbstractTail (s : List Char) : List Char :=
  ((s.drop 2).drop ((s.drop 2).takeWhile pyIsSpace).length).drop 8

/-- Leftmost match of `r'##\s*Abstract\s*\n+([^#]+)'`: returns the captured
group. -/
def findAbstract : List Char → Option (List Char)
  | [] => none
  | c :: rest =>
    if abstractHeadHere (c :: rest) then
      match abstractBack (afterAbstractTail (c :: rest))
          ((afterAbstractTail (c :: rest)).takeWhile pyIsSpace).length with
      | some g => some g
      | none => findAbstract rest
    else findAbstract rest

/-- The extracted metadata record. -/
structure DocInfo where
  title : List Char
  author : List Char
  email : List Char
  abstract : List Char
  clean_content : List Char

def authorTok : List Char := ("**Author**:").data

def emailTok : List Char := ("**Email**:").data

/-- `match.group(1).strip() if match else ""`. -/
def labeled_value (tok s : List Char) : List Char :=
  match findLabeled tok s with
  | some m => pyStrip m.group
  | none => []

/-- `re.sub(pattern, '', s, count=1, flags=re.MULTILINE)`. -/
def labeled_sub (tok s : List Char) : List Char :=
  match findLabeled tok s with
  | some m => m.pre ++ m.post
  | none => s

/-- The author-removal step of `clean_content` (sub applied only when the
extracted author value is nonempty). -/
def author_sub (content : List Char) : List Char :=
  if labeled_value authorTok content = [] then content
  else labeled_sub authorTok content

/-- The email-removal step of `clean_content`, applied to the
author-cleaned text; note the guard tests the email value extracted from
the original content. -/
def email_author_sub (content : List Char) : List Char :=
  if labeled_value emailTok content = [] then author_sub content
  else labeled_sub emailTok (author_sub content)

/-- `extract_document_info` (md2pdf.py lines 155-185). -/
def extract_document_info (content : List Char) : DocInfo :=
  ⟨(match findTitle true content with
    | some g => pyStrip g
    | none => ("Document").data),
   labeled_value authorTok content,
   labeled_value emailTok content,
   (match findAbstract content with
    | some g => pyStrip g
    | none => []),
   email_author_sub content⟩

theorem drop_takeWhile_length {α : Type} (p : α → Bool) (l : List α) :
    l.drop (l.takeWhile p).length = l.dropWhile p := by
  induction l with
  | nil => rfl
  | cons c rest ih =>
    by_cases h : p c
    · simp only [List.takeWhile_cons_of_pos h, List.dropWhile_cons_of_pos h,
        List.length_cons, List.drop_succ_cons]
      exact ih
    · simp [List.takeWhile_cons_of_neg h, List.dropWhile_cons_of_neg h]

theorem wsDotPlusCore_group {t : List Char} {k : Nat} {g : List Char}
    (h : wsDotPlusCore t = some (k, g)) :
    g = (t.drop k).takeWhile (fun c => c ≠ '\n') := by
  unfold wsDotPlusCore at h
  split at h
  · cases h2 : lastNonNl t (t.takeWhile pyIsSpace).length with
    | none => rw [h2] at h; exact absurd h (by simp)
    | some k' =>
      rw [h2] at h
      simp only [Option.some.injEq, Prod.mk.injEq] at h
      obtain ⟨rfl, rfl⟩ := h
      rfl
  · simp only [Option.some.injEq, Prod.mk.injEq] at h
    obtain ⟨rfl, rfl⟩ := h
    rfl

theorem dropWhile_ne_nl_head (l : List Char) :
    l.dropWhile (fun c => c ≠ '\n') = [] ∨
      ∃ cs, l.dropWhile (fun c => c ≠ '\n') = '\n' :: cs := by
  induction l with
  | nil => exact Or.inl rfl
  | cons c rest ih =>
    by_cases h : c = '\n'
    · subst h
      exact Or.inr ⟨rest, by rw [List.dropWhile_cons_of_neg (by simp)]⟩
    · rw [List.dropWhile_cons_of_pos (by simpa using h)]
      exact ih

theorem findLabeled_some {tok : List Char} :
    ∀ {s : List Char} {m : LabelMatch}, findLabeled tok s = some m →
      s = m.pre ++ m.matched ++ m.post ∧
        tok.isPrefixOf m.matched = true ∧
        (m.post = [] ∨ ∃ cs, m.post = '\n' :: cs) := by
  intro s
  induction s with
  | nil => intro m h; simp [findLabeled] at h
  | cons c rest ih =>
    intro m h
    unfold findLabeled at h
    split at h
    · next hp =>
      cases h2 : wsDotPlusCore ((c :: rest).drop tok.length) with
      | some kg =>
        match kg, h2 with
        | (k, g), h2 =>
          rw [h2] at h
          simp only [Option.some.injEq] at h
          subst h
          have hg := wsDotPlusCore_group h2
          have hT := isPrefixOf_eq_append hp
          have hdd : ((c :: rest).drop tok.length).drop (k + g.length) =
              (((c :: rest).drop tok.length).drop k).drop g.length := by
            simp only [List.drop_drop]
            congr 1
            omega
          have hsplit : ((c :: rest).drop tok.length).take k ++
              (g ++ ((c :: rest).drop tok.length).drop (k + g.length)) =
              (c :: rest).drop tok.length := by
            rw [hdd, hg, drop_takeWhile_length, List.takeWhile_append_dropWhile,
              List.take_append_drop]
          refine ⟨?_, ?_, ?_⟩
          · simp only [List.nil_append, List.append_assoc]
            rw [hsplit]
            exact hT
          · simp only
            rw [List.append_assoc]
            exact isPrefixOf_append_self _ _
          · simp only
            rw [hdd, hg, drop_takeWhile_length]
            exact dropWhile_ne_nl_head _
      | none =>
        rw [h2] at h
        cases h3 : findLabeled tok rest with
        | some m' =>
          rw [h3] at h
          simp only [Option.some.injEq] at h
          subst h
          obtain ⟨ih1, ih2, ih3⟩ := ih h3
          exact ⟨by simp [ih1], ih2, ih3⟩
        | none => rw [h3] at h; exact absurd h (by simp)
    · cases h3 : findLabeled tok rest with
      | some m' =>
        rw [h3] at h
        simp only [Option.some.injEq] at h
        subst h
        obtain ⟨ih1, ih2, ih3⟩ := ih h3
        exact ⟨by simp [ih1], ih2, ih3⟩
      | none => rw [h3] at h; exact absurd h (by simp)

theorem findLabeled_eq_none {tok : List Char} :
    ∀ {s : List Char}, containsTok tok s = false → findLabeled tok s = none := by
  intro s
  induction s with
  | nil => intro _; rfl
  | cons c rest ih =>
    intro h
    unfold containsTok at h
    simp only [Bool.or_eq_false_iff] at h
    obtain ⟨h1, h2⟩ := h
    unfold findLabeled
    rw [if_neg (by simp [h1])]
    rw [ih h2]

theorem isPrefixOf_append_of_isPrefixOf {l s : List Char}
    (h : l.isPrefixOf s = true) (t : List Char) :
    l.isPrefixOf (s ++ t) = true := by
  have hs := isPrefixOf_eq_append h
  rw [hs, List.append_assoc]
  exact isPrefixOf_append_self _ _

theorem labeled_value_eq_nil {tok s : List Char}
    (h : containsTok tok s = false) : labeled_value tok s = [] := by
  unfold labeled_value
  rw [findLabeled_eq_none h]

theorem labeled_sub_eq_self {tok s : List Char}
    (h : containsTok tok s = false) : labeled_sub tok s = s := by
  unfold labeled_sub
  rw [findLabeled_eq_none h]

/-- When no author label and no email label occur, `clean_content` is the
input itself. -/
theorem clean_id_of_no_tokens {s : List Char}
    (h1 : containsTok authorTok s = false)
    (h2 : containsTok emailTok s = false) :
    email_author_sub s = s := by
  unfold email_author_sub author_sub
  rw [labeled_value_eq_nil h1, labeled_value_eq_nil h2]
  simp

/-- C2 (amended): running the Metadata Extractor a second time on the first
run's `clean_content` returns it unchanged, provided that `clean_content`
contains no remaining `**Author**:` or `**Email**:` label — the condition
the spec asserts always holds but which fails when the input carries more
than one such label. -/
theorem C2_idempotent_when_no_labels_remain (content : List Char)
    (h1 : containsTok authorTok
      ((extract_document_info content).clean_content) = false)
    (h2 : containsTok emailTok
      ((extract_document_info content).clean_content) = false) :
    (extract_document_info
        ((extract_document_info content).clean_content)).clean_content =
      (extract_document_info content).clean_content :=
  clean_id_of_no_tokens h1 h2

/-- Counterexample to C2 as stated: with two author lines, the first run
strips only the first one (`count=1`), so a second run strips again and the
extractor is not idempotent on its own output. -/
theorem C2_counterexample :
    (extract_document_info
        ((extract_document_info
          (("**Author**: A\n**Author**: B").data)).clean_content)).clean_content ≠
      (extract_document_info
        (("**Author**: A\n**Author**: B").data)).clean_content := by
  decide

/-- Witness for C2 at a concrete single-author document. -/
theorem C2_idempotent_witness :
    (extract_document_info
        ((extract_document_info (("# T\n**Author**: Al\n").data)).clean_content)).clean_content =
      (extract_document_info (("# T\n**Author**: Al\n").data)).clean_content :=
  C2_idempotent_when_no_labels_remain (("# T\n**Author**: Al\n").data)
    (by decide) (by decide)

/-- Does the (first) match of the labelled pattern, if any, stay on one
line (contain no newline)?  `\s*` crossing a newline is the only way the
matched span can span lines. -/
def matchNoNl (tok s : List Char) : Bool :=
  match findLabeled tok s with
  | some m => m.matched.all (fun c => !(c = '\n'))
  | none => true

theorem count_labeled_sub {tok s : List Char} (h : matchNoNl tok s = true) :
    (labeled_sub tok s).count '\n' = s.count '\n' := by
  unfold matchNoNl at h
  cases hm : findLabeled tok s with
  | none => simp [labeled_sub, hm]
  | some m =>
    rw [hm] at h
    obtain ⟨hd, _, _⟩ := findLabeled_some hm
    have hnm : '\n' ∉ m.matched := by
      intro hmem
      have := List.all_eq_true.1 h _ hmem
      simp at this
    rw [labeled_sub, hm]
    conv_rhs => rw [hd]
    simp [List.count_append, List.count_eq_zero.2 hnm]

/-- C9 (amended): `clean_content` has the same number of lines as the input
whenever each removed match lies on a single line (its text contains no
newline); the matched text is then blanked in place and its line survives
as a (possibly empty) line.  Without that condition the `\s*` of the
pattern can swallow a newline and merge lines. -/
theorem C9_line_count_preserved (content : List Char)
    (h1 : matchNoNl authorTok content = true)
    (h2 : matchNoNl emailTok (author_sub content) = true) :
    (splitNL ((extract_document_info content).clean_content)).length =
      (splitNL content).length := by
  have hc : (extract_document_info content).clean_content =
      email_author_sub content := rfl
  rw [hc, splitNL_length, splitNL_length]
  have ha : (author_sub content).count '\n' = content.count '\n' := by
    unfold author_sub
    split
    · rfl
    · exact count_labeled_sub h1
  have hb : (email_author_sub content).count '\n' =
      (author_sub content).count '\n' := by
    unfold email_author_sub
    split
    · rfl
    · exact count_labeled_sub h2
  omega

/-- Counterexample to C9 as stated: in `"**Author**:\nBob"` the greedy
`\s*` crosses the newline, the whole two-line span is removed, and the
line count drops from 2 to 1. -/
theorem C9_counterexample :
    (splitNL ((extract_document_info
        (("**Author**:\nBob").data)).clean_content)).length ≠
      (splitNL (("**Author**:\nBob").data)).length := by
  decide

/-- Witness for C9 at a concrete document whose author and email matches
lie on single lines. -/
theorem C9_line_count_witness :
    (splitNL ((extract_document_info
        (("# T\n**Author**: Al\n**Email**: e\nB").data)).clean_content)).length =
      (splitNL (("# T\n**Author**: Al\n**Email**: e\nB").data)).length :=
  C9_line_count_preserved (("# T\n**Author**: Al\n**Email**: e\nB").data)
    (by decide) (by decide)

/-- A deleted span of `clean_content`: empty, or starting with one of the
two labels. -/
def okSpan (u : List Char) : Prop :=
  u = [] ∨ authorTok.isPrefixOf u = true ∨ emailTok.isPrefixOf u = true

theorem author_sub_decomp (content : List Char) :
    author_sub content = content ∨
      ∃ m : LabelMatch, findLabeled authorTok content = some m ∧
        content = m.pre ++ m.matched ++ m.post ∧
        author_sub content = m.pre ++ m.post := by
  unfold author_sub
  by_cases ha : labeled_value authorTok content = []
  · rw [if_pos ha]
    exact Or.inl rfl
  · rw [if_neg ha]
    cases hm : findLabeled authorTok content with
    | none => exact Or.inl (by simp [labeled_sub, hm])
    | some m =>
      exact Or.inr ⟨m, rfl, (findLabeled_some hm).1, by simp [labeled_sub, hm]⟩

theorem not_nl_mem_emailTok : '\n' ∉ emailTok := by decide

/-- C6 (amended): `clean_content` equals the input with at most two
contiguous spans deleted in place — corresponding to the first
author-pattern match and the first email-pattern match, each deleted span
beginning with one of the two labels — with all other content unchanged and
in order.  (The matched text is deleted, not the whole line: a line holding
only a matched span survives as a blank line.) -/
theorem C6_clean_deletes_label_spans (content : List Char) :
    ∃ x u y v z : List Char,
      content = x ++ u ++ y ++ v ++ z ∧
        (extract_document_info content).clean_content = x ++ y ++ z ∧
        okSpan u ∧ okSpan v := by
  have hc : (extract_document_info content).clean_content =
      email_author_sub content := rfl
  rw [hc]
  unfold email_author_sub
  by_cases he : labeled_value emailTok content = []
  · rw [if_pos he]
    rcases author_sub_decomp content with h | ⟨m, hm, hd, hs⟩
    · exact ⟨content, [], [], [], [], by simp, by simp [h], Or.inl rfl, Or.inl rfl⟩
    · exact ⟨m.pre, m.matched, [], [], m.post, by simpa using hd, by simp [hs],
        Or.inr (Or.inl (findLabeled_some hm).2.1), Or.inl rfl⟩
  · rw [if_neg he]
    cases hm2 : findLabeled emailTok (author_sub content) with
    | none =>
      have hid : labeled_sub emailTok (author_sub content) = author_sub content := by
        simp [labeled_sub, hm2]
      rw [hid]
      rcases author_sub_decomp content with h | ⟨m, hm, hd, hs⟩
      · exact ⟨content, [], [], [], [], by simp, by simp [h], Or.inl rfl, Or.inl rfl⟩
      · exact ⟨m.pre, m.matched, [], [], m.post, by simpa using hd, by simp [hs],
          Or.inr (Or.inl (findLabeled_some hm).2.1), Or.inl rfl⟩
    | some m2 =>
      have hsub : labeled_sub emailTok (author_sub content) = m2.pre ++ m2.post := by
        simp [labeled_sub, hm2]
      rw [hsub]
      obtain ⟨hd2, hp2, _⟩ := findLabeled_some hm2
      rcases author_sub_decomp content with h | ⟨m1, hm1, hd1, hs1⟩
      · rw [h] at hd2
        exact ⟨m2.pre, m2.matched, [], [], m2.post, by simpa using hd2, by simp,
          Or.inr (Or.inr hp2), Or.inl rfl⟩
      · obtain ⟨_, hp1, hq1shape⟩ := findLabeled_some hm1
        have heq : m1.pre ++ m1.post = m2.pre ++ (m2.matched ++ m2.post) := by
          rw [← hs1, hd2, List.append_assoc]
        rcases List.append_eq_append_iff.1 heq with ⟨t, ht1, ht2⟩ | ⟨t, ht1, ht2⟩
        · -- the email match lies inside the author match's tail
          refine ⟨m1.pre, m1.matched, t, m2.matched, m2.post, ?_, ?_,
            Or.inr (Or.inl hp1), Or.inr (Or.inr hp2)⟩
          · rw [hd1, ht2]
            simp [List.append_assoc]
          · rw [ht1]
        · rcases List.append_eq_append_iff.1 ht2 with ⟨r, hr1, hr2⟩ | ⟨r, hr1, hr2⟩
          · -- the email match lies inside the author match's prefix
            refine ⟨m2.pre, m2.matched, r, m1.matched, m1.post, ?_, ?_,
              Or.inr (Or.inr hp2), Or.inr (Or.inl hp1)⟩
            · rw [hd1, ht1, hr1]
              simp [List.append_assoc]
            · rw [hr2]
              simp [List.append_assoc]
          · -- the email match straddles the author deletion point
            have hmm2 : m2.matched = emailTok ++ m2.matched.drop emailTok.length :=
              isPrefixOf_eq_append hp2
            have heq2 : t ++ r = emailTok ++ m2.matched.drop emailTok.length := by
              rw [← hr1, ← hmm2]
            rcases List.append_eq_append_iff.1 heq2 with ⟨w, hw1, hw2⟩ | ⟨w, hw1, hw2⟩
            · match w, hw1, hw2 with
              | [], hw1, hw2 =>
                refine ⟨m2.pre, t ++ (m1.matched ++ r), [], [], m2.post, ?_, by simp,
                  ?_, Or.inl rfl⟩
                · rw [hd1, ht1, hr2]
                  simp [List.append_assoc]
                · right; right
                  have het : emailTok.isPrefixOf t = true := by
                    have : emailTok = t := by simpa using hw1
                    rw [this]
                    simpa using isPrefixOf_append_self t []
                  exact isPrefixOf_append_of_isPrefixOf het _
              | c0 :: w', hw1, hw2 =>
                exfalso
                have hq1 : m1.post =
                    (c0 :: (w' ++ m2.matched.drop emailTok.length)) ++ m2.post := by
                  rw [hr2, hw2]
                  simp
                rcases hq1shape with hnil | ⟨cs, hcs⟩
                · rw [hnil] at hq1
                  exact absurd hq1.symm (by simp)
                · rw [hcs] at hq1
                  simp only [List.cons_append, List.cons.injEq] at hq1
                  have hc0 : c0 = '\n' := hq1.1.symm
                  have hcmem : c0 ∈ emailTok := by
                    rw [hw1]
                    exact List.mem_append.2 (Or.inr (List.mem_cons_self _ _))
                  rw [hc0] at hcmem
                  exact not_nl_mem_emailTok hcmem
            · refine ⟨m2.pre, t ++ (m1.matched ++ r), [], [], m2.post, ?_, by simp,
                ?_, Or.inl rfl⟩
              · rw [hd1, ht1, hr2]
                simp [List.append_assoc]
              · right; right
                have het : emailTok.isPrefixOf t = true := by
                  rw [hw1]
                  exact isPrefixOf_append_self _ _
                exact isPrefixOf_append_of_isPrefixOf het _

/-- Modelled from the spec wording, for refutation only: "`clean_content`:
input with the single first-matching author line and first-matching email
line removed" rendered literally as the removal of whole lines. -/
def removeFirstLine (p : List Char → Bool) : List (List Char) → List (List Char)
  | [] => []
  | l :: ls => if p l then ls else l :: removeFirstLine p ls

/-- Modelled from the spec: remove the first line containing the author
label, then the first line containing the email label. -/
def spec_clean_removes_lines (content : List Char) : List Char :=
  joinNL (removeFirstLine (fun l => containsTok emailTok l)
    (removeFirstLine (fun l => containsTok authorTok l) (splitNL content)))

/-- Counterexample to C6 as stated: the code blanks the matched text but
keeps its line, so the author line is not removed — a blank line remains —
while the spec's line-removal reading drops the whole line. -/
theorem C6_counterexample :
    (extract_document_info (("A\n**Author**: Bob\nC").data)).clean_content ≠
      spec_clean_removes_lines (("A\n**Author**: Bob\nC").data) := by
  decide

/-! ## Flag validation in `main` (md2pdf.py lines 355-357) -/

/-- The `--arabic` validation guard
`if arabic_font_size and arabic_font_size <= 0`: under Python truthiness
`None` and `0` are falsy, so the `<= 0` comparison is reached only for
nonzero values.  `true` means the program logs the validation error and
exits with status 1 before any external tool runs. -/
def arabicSizeRejected : Option Int → Bool
  | none => false
  | some v => decide (v ≠ 0) && decide (v ≤ 0)

/-- Counterexample to C3 as stated: the supplied value `0` is non-positive,
yet the guard does not fire (0 is falsy), so no validation error is
reported and the conversion proceeds. -/
theorem C3_counterexample :
    arabicSizeRejected (some 0) = false ∧ (0 : Int) ≤ 0 := by decide

/-- C3 (amended): a supplied font size triggers the validation error
exactly when it is negative; zero is treated as "no override" (falsy) and
accepted, and every positive value is accepted. -/
theorem C3_rejects_exactly_negative (v : Int) :
    arabicSizeRejected (some v) = decide (v < 0) := by
  unfold arabicSizeRejected
  rcases lt_trichotomy v 0 with h | h | h
  · simp [h, ne_of_lt h, le_of_lt h]
  · subst h
    simp
  · simp [not_le.2 h, not_lt.2 (le_of_lt h), ne_of_gt h]

/-! ## C7: the abstract pattern -/

theorem findAbstract_cons (c : Char) (rest : List Char) :
    findAbstract (c :: rest) =
      if abstractHeadHere (c :: rest) then
        match abstractBack (afterAbstractTail (c :: rest))
            ((afterAbstractTail (c :: rest)).takeWhile pyIsSpace).length with
        | some g => some g
        | none => findAbstract rest
      else findAbstract rest := rfl

/-- When the document contains no `##` at all, the abstract pattern cannot
match anywhere. -/
theorem findAbstract_none_of_no_double_hash :
    ∀ {s : List Char}, containsTok (("##").data) s = false →
      findAbstract s = none := by
  intro s
  induction s with
  | nil => intro _; rfl
  | cons c rest ih =>
    intro h
    unfold containsTok at h
    simp only [Bool.or_eq_false_iff] at h
    obtain ⟨h1, h2⟩ := h
    rw [findAbstract_cons]
    have hhh : abstractHeadHere (c :: rest) = false := by
      unfold abstractHeadHere
      rw [h1]
      rfl
    rw [hhh]
    simp only [Bool.false_eq_true, if_false]
    exact ih h2

/-- Does the `## \s* Abstract` head match at some position strictly inside
`pre` (with `rest` as the continuation of the text)? -/
def noAbstractHeadIn : List Char → List Char → Bool
  | [], _ => true
  | c :: p', rest =>
    !(abstractHeadHere (c :: (p' ++ rest))) && noAbstractHeadIn p' rest

/-- The leftmost scan skips any prefix in which the abstract head never
matches. -/
theorem findAbstract_append_of_no_head :
    ∀ {pre rest : List Char}, noAbstractHeadIn pre rest = true →
      findAbstract (pre ++ rest) = findAbstract rest := by
  intro pre
  induction pre with
  | nil => intro rest _; rfl
  | cons c p' ih =>
    intro rest h
    unfold noAbstractHeadIn at h
    simp only [Bool.and_eq_true, Bool.not_eq_true'] at h
    obtain ⟨h1, h2⟩ := h
    rw [List.cons_append, findAbstract_cons, h1]
    simp only [Bool.false_eq_true, if_false]
    exact ih h2

theorem nlRep_takeWhile (j : Nat) {b : Char} (hb : pyIsSpace b = false)
    (rest : List Char) :
    (List.replicate j '\n' ++ b :: rest).takeWhile pyIsSpace =
      List.replicate j '\n' := by
  induction j with
  | zero =>
    simp only [List.replicate_zero, List.nil_append]
    rw [List.takeWhile_cons_of_neg (by simp [hb])]
  | succ i ih =>
    rw [List.replicate_succ, List.cons_append,
      List.takeWhile_cons_of_pos (by decide), ih, ← List.replicate_succ]

theorem nlRep_getElem (j : Nat) (rest : List Char) :
    ('\n' :: (List.replicate j '\n' ++ rest))[j]? = some '\n' := by
  induction j with
  | zero => simp
  | succ i ih =>
    rw [List.replicate_succ, List.cons_append, List.getElem?_cons_succ]
    exact ih

theorem nlRep_getElem_succ (j : Nat) (b : Char) (rest : List Char) :
    ('\n' :: (List.replicate j '\n' ++ b :: rest))[j + 1]? = some b := by
  induction j with
  | zero => simp
  | succ i ih =>
    rw [List.replicate_succ, List.cons_append, List.getElem?_cons_succ]
    exact ih

theorem nlRep_drop (j : Nat) (rest : List Char) :
    ('\n' :: (List.replicate j '\n' ++ rest)).drop j = '\n' :: rest := by
  induction j with
  | zero => simp
  | succ i ih =>
    rw [List.replicate_succ, List.cons_append, List.drop_succ_cons]
    exact ih

theorem nlRep_drop_succ (j : Nat) (rest : List Char) :
    ('\n' :: (List.replicate j '\n' ++ rest)).drop (j + 1) = rest := by
  induction j with
  | zero => rfl
  | succ i ih =>
    rw [List.replicate_succ, List.cons_append, List.drop_succ_cons]
    exact ih

theorem nlRunLen_at (j : Nat) {b : Char} (hbnl : b ≠ '\n') (rest : List Char) :
    nlRunLen ('\n' :: (List.replicate j '\n' ++ b :: rest)) j = 1 := by
  unfold nlRunLen
  rw [nlRep_drop j (b :: rest), List.takeWhile_cons_of_pos (by decide),
    @List.takeWhile_cons_of_neg Char (fun c => decide (c = '\n')) b rest
      (by simp [hbnl])]
  rfl

/-- The backtracking engine, started at the whitespace-run length `j + 1`,
succeeds on its very first attempt (the run ends in a newline because the
following character `b` is not whitespace) and captures everything up to
the next `#`. -/
theorem abstractBack_at (j : Nat) {b : Char} (hb : pyIsSpace b = false)
    (hbh : b ≠ '#') (rest : List Char) :
    abstractBack ('\n' :: (List.replicate j '\n' ++ b :: rest)) (j + 1) =
      some ((b :: rest).takeWhile (fun c => c ≠ '#')) := by
  have hbnl : b ≠ '\n' := by
    intro hh
    rw [hh] at hb
    exact absurd hb (by decide)
  unfold abstractBack
  simp only [nlRep_getElem, if_true]
  rw [nlRunLen_at j hbnl rest]
  simp only [nlRep_getElem_succ]
  rw [if_neg hbh, nlRep_drop_succ j (b :: rest)]

/-- Evaluation of `findAbstract` at the `## Abstract` header: any number of
extra blank lines may separate the heading from the block; the captured
group is the block up to the next `#` character (the whole remainder when
no `#` follows). -/
theorem findAbstract_hdr (j : Nat) (b : Char) (rest : List Char)
    (hb : pyIsSpace b = false) (hbh : b ≠ '#') :
    findAbstract (abstractHdr ++ (List.replicate j '\n' ++ b :: rest)) =
      some ((b :: rest).takeWhile (fun c => c ≠ '#')) := by
  have hs2 : (abstractHdr ++ (List.replicate j '\n' ++ b :: rest)).drop 2 =
      (" Abstract\n").data ++ (List.replicate j '\n' ++ b :: rest) := rfl
  have hw : ((" Abstract\n").data ++
      (List.replicate j '\n' ++ b :: rest)).takeWhile pyIsSpace = [' '] := by
    have e : (" Abstract\n").data ++ (List.replicate j '\n' ++ b :: rest) =
        ' ' :: (("Abstract\n").data ++ (List.replicate j '\n' ++ b :: rest)) := rfl
    have e2 : ("Abstract\n").data ++ (List.replicate j '\n' ++ b :: rest) =
        'A' :: (("bstract\n").data ++ (List.replicate j '\n' ++ b :: rest)) := rfl
    rw [e, List.takeWhile_cons_of_pos (by decide), e2,
      List.takeWhile_cons_of_neg (by decide)]
  have hhh : abstractHeadHere
      (abstractHdr ++ (List.replicate j '\n' ++ b :: rest)) = true := by
    unfold abstractHeadHere
    rw [hs2, hw]
    rfl
  have hat : afterAbstractTail
      (abstractHdr ++ (List.replicate j '\n' ++ b :: rest)) =
      '\n' :: (List.replicate j '\n' ++ b :: rest) := by
    unfold afterAbstractTail
    rw [hs2, hw]
    rfl
  have hw2 : (('\n' : Char) ::
      (List.replicate j '\n' ++ b :: rest)).takeWhile pyIsSpace =
      '\n' :: List.replicate j '\n' := by
    rw [List.takeWhile_cons_of_pos (by decide), nlRep_takeWhile j hb rest]
  have hsplit : abstractHdr ++ (List.replicate j '\n' ++ b :: rest) =
      '#' :: (("# Abstract\n").data ++ (List.replicate j '\n' ++ b :: rest)) := rfl
  rw [hsplit, findAbstract_cons, ← hsplit, hhh]
  simp only [if_true]
  rw [hat, hw2]
  have hlen : (('\n' : Char) :: List.replicate j '\n').length = j + 1 := by
    simp
  rw [hlen, abstractBack_at j hb hbh rest]

/-- C7 (amended): the abstract stops at the next `#` character anywhere,
not at the next heading, and is empty when no heading exists.  Precisely:
(1) when the document contains no `##` at all (so no `## Abstract` heading
exists), the abstract is the empty string; (2) for every document of the
form `pre ++ "## Abstract\n" ++ <blank lines> ++ block` in which the
abstract head does not match inside `pre` (the leftmost-match condition;
`pre` may freely contain `#`, e.g. a title) and the block starts with a
non-whitespace character other than `#`, the abstract is the block up to
(excluding) the next `#` character — the whole remainder when no `#`
follows — with surrounding whitespace stripped. -/
theorem C7_abstract_upto_hash :
    (∀ content : List Char, containsTok (("##").data) content = false →
        (extract_document_info content).abstract = []) ∧
      (∀ (pre : List Char) (j : Nat) (b : Char) (rest : List Char),
        noAbstractHeadIn pre
            (abstractHdr ++ (List.replicate j '\n' ++ b :: rest)) = true →
        pyIsSpace b = false → b ≠ '#' →
        (extract_document_info
            (pre ++ abstractHdr ++ (List.replicate j '\n' ++ b :: rest))).abstract =
          pyStrip ((b :: rest).takeWhile (fun c => c ≠ '#'))) := by
  constructor
  · intro content h
    have habs : (extract_document_info content).abstract =
        (match findAbstract content with
         | some g => pyStrip g
         | none => []) := rfl
    rw [habs, findAbstract_none_of_no_double_hash h]
  · intro pre j b rest hpre hb hbh
    have habs : (extract_document_info
        (pre ++ abstractHdr ++ (List.replicate j '\n' ++ b :: rest))).abstract =
        (match findAbstract
            (pre ++ abstractHdr ++ (List.replicate j '\n' ++ b :: rest)) with
         | some g => pyStrip g
         | none => []) := rfl
    rw [habs, List.append_assoc, findAbstract_append_of_no_head hpre,
      findAbstract_hdr j b rest hb hbh]

/-- Witness for C7 (amended): a document with no heading yields an empty
abstract, and a document with a `#`-bearing title before the heading and a
blank line after it yields the block up to the `#` of `#5`. -/
theorem C7_abstract_upto_hash_witness :
    (extract_document_info (("plain text, no heading").data)).abstract = [] ∧
      (extract_document_info
          ((("# Title\n").data) ++ abstractHdr ++
            (List.replicate 1 '\n' ++ 'H' :: ("i #5 tail").data))).abstract =
        pyStrip (('H' :: ("i #5 tail").data).takeWhile (fun c => c ≠ '#')) :=
  ⟨C7_abstract_upto_hash.1 (("plain text, no heading").data) (by decide),
   C7_abstract_upto_hash.2 (("# Title\n").data) 1 'H' (("i #5 tail").data)
     (by decide) (by decide) (by decide)⟩

/-- `l.startswith('#')` on a line, used by the spec-side reading. -/
def isHeadingStartLine (l : List Char) : Bool := l.take 1 = ['#']

def linesUptoHeading : List (List Char) → List (List Char)
  | [] => []
  | l :: ls => if isHeadingStartLine l then [] else l :: linesUptoHeading ls

def linesAfterAbstract : List (List Char) → List (List Char)
  | [] => []
  | l :: ls =>
    if pyStrip l = ("## Abstract").data then linesUptoHeading ls
    else linesAfterAbstract ls

/-- Modelled from the spec, for refutation only: "abstract: text block
following an `## Abstract` heading, up to the next heading". -/
def spec_abstract_upto_heading (content : List Char) : List Char :=
  pyStrip (joinNL (linesAfterAbstract (splitNL content)))

/-- Counterexample to C7 as stated: with no further heading the spec
reading keeps the whole block `Bug #5 fix`, but the code's `[^#]+` stops at
the `#` of `#5` and yields `Bug`. -/
theorem C7_counterexample :
    (extract_document_info (("## Abstract\nBug #5 fix").data)).abstract ≠
      spec_abstract_upto_heading (("## Abstract\nBug #5 fix").data) := by
  decide
